import Mathlib

/- Verification of the classifierPerformance library.

Shallow embedding of the Go package `classifierPerformance` (the library file
with `EvalPerformance`/`PrecisionRecall`/`Roc`/`AUC`/`Optimum`, its duplicated
`ComputePerformance` variant and the CLI `cmd/classifierPerformance`).
Go `float64` scores are modelled by `ℚ` (exact arithmetic; all score handling
in the source is comparison, map lookup and field-wise arithmetic), Go `int`
by `ℤ` for labels and confusion counts and by `ℕ` for the running counters.
A call that panics is modelled by `Option` (`none` = panic), a fallible call
by `Except String`.

A prediction list is a list of `(score, label)` pairs; the Go code keeps two
parallel slices which `sort.Sort` permutes together, so the pair list is the
faithful state of the caller's two arrays. -/

/-- The in-place `sort.Sort(Predictions{values, labels})` at the top of
`EvalPerformance`: sorts the caller's pairs by ascending score.  Because the
sort happens in place on the caller's backing arrays, this value is also the
state of the caller's `values`/`labels` slices after `EvalPerformance`
returns (no other statement of `EvalPerformance` writes to them). -/
def sortPred (pred : List (ℚ × ℤ)) : List (ℚ × ℤ) :=
  List.insertionSort (fun a b => a.1 ≤ b.1) pred

instance : IsTotal (ℚ × ℤ) (fun a b => a.1 ≤ b.1) :=
  ⟨fun a b => le_total a.1 b.1⟩

instance : IsTrans (ℚ × ℤ) (fun a b => a.1 ≤ b.1) :=
  ⟨fun _ _ _ h1 h2 => le_trans h1 h2⟩

/-- State of the counting loop of `EvalPerformance`: running counters `n_pos`,
`n_neg` and the two Go maps `n_pos_map`, `n_neg_map`, modelled as total
functions (only keys that were written are ever read). -/
structure ScanState where
  np : ℕ
  nn : ℕ
  mp : ℚ → ℕ
  mn : ℚ → ℕ

/-- Go map assignment `m[k] = v`. -/
def upd (f : ℚ → ℕ) (k : ℚ) (v : ℕ) : ℚ → ℕ :=
  fun x => if x = k then v else f x

/-- The counting loop of `EvalPerformance`: a label `1` bumps `n_pos`, a label
`0` bumps `n_neg`, any other label aborts with the `invalid label` error; in
every non-error iteration both maps record the current counters under the
sample's score. -/
def scanLoop : List (ℚ × ℤ) → ScanState → Except String ScanState
  | [], st => .ok st
  | (s, l) :: rest, st =>
    if l = 1 then
      scanLoop rest ⟨st.np + 1, st.nn, upd st.mp s (st.np + 1), upd st.mn s st.nn⟩
    else if l = 0 then
      scanLoop rest ⟨st.np, st.nn + 1, upd st.mp s st.np, upd st.mn s (st.nn + 1)⟩
    else
      .error "invalid label"

/-- The threshold list of `EvalPerformance`: the key set of `n_pos_map` (the
distinct scores, `dedup` of the sorted scores), sorted ascending by
`sort.Float64s`. -/
def trOf (pred : List (ℚ × ℤ)) : List ℚ :=
  List.insertionSort (fun a b => a ≤ b) (((sortPred pred).map Prod.fst).dedup)

/-- The `Performance` struct of the Go code. -/
structure Performance where
  Tr : List ℚ
  Tp : List ℤ
  Fp : List ℤ
  Tn : List ℤ
  Fn : List ℤ
  P : ℤ
  N : ℤ
deriving DecidableEq

/-- `EvalPerformance(values, labels)`: sorts the input by score in place, runs
the counting loop, then derives the per-threshold entries
`tp[i] = n_pos - n_pos_map[t]`, `fp[i] = n_neg - n_neg_map[t]`,
`tn[i] = n_neg_map[t]`, `fn[i] = n_pos_map[t]`. -/
def evalPerformance (pred : List (ℚ × ℤ)) : Except String Performance :=
  match scanLoop (sortPred pred) ⟨0, 0, fun _ => 0, fun _ => 0⟩ with
  | .error e => .error e
  | .ok st =>
    let tr := trOf pred
    .ok ⟨tr,
         tr.map (fun t => (st.np : ℤ) - st.mp t),
         tr.map (fun t => (st.nn : ℤ) - st.mn t),
         tr.map (fun t => (st.mn t : ℤ)),
         tr.map (fun t => (st.mp t : ℤ)),
         st.np, st.nn⟩

/-- The counting loop of the duplicated `ComputePerformance` /
`compute_performance` variant: two independent `if` tests (no `else`), so an
invalid label is silently skipped by both counters and no error path exists. -/
def computeScan : List (ℚ × ℤ) → ScanState → ScanState
  | [], st => st
  | (s, l) :: rest, st =>
    computeScan rest ⟨if l = 1 then st.np + 1 else st.np,
                      if l = 0 then st.nn + 1 else st.nn,
                      upd st.mp s (if l = 1 then st.np + 1 else st.np),
                      upd st.mn s (if l = 0 then st.nn + 1 else st.nn)⟩

/-- `ComputePerformance(predictions)` (and the CLI's `compute_performance`):
no sorting of the input, and the threshold list is built from *all* score
values (`for _, key := range predictions.Values`), duplicates included, then
sorted; the per-threshold entries are derived exactly as in
`EvalPerformance`. -/
def computePerformance (pred : List (ℚ × ℤ)) : Performance :=
  let st := computeScan pred ⟨0, 0, fun _ => 0, fun _ => 0⟩
  let tr := List.insertionSort (fun a b => a ≤ b) (pred.map Prod.fst)
  ⟨tr,
   tr.map (fun t => (st.np : ℤ) - st.mp t),
   tr.map (fun t => (st.nn : ℤ) - st.mn t),
   tr.map (fun t => (st.mn t : ℤ)),
   tr.map (fun t => (st.mp t : ℤ)),
   st.np, st.nn⟩

/-- The loop of `PrecisionRecall` over triples `(tp, fp, fn)`, carrying the
previous precision entry (initially the zero value of `make([]float64, n)`):
if `tp > 0` both ratios are assigned; otherwise recall keeps its zero value
and precision copies the previous entry (`precision[i] = precision[i-1]` for
`i > 0`, untouched zero for `i = 0`). -/
def prLoop : List (ℤ × ℤ × ℤ) → ℚ → List ℚ × List ℚ
  | [], _ => ([], [])
  | t :: rest, prev =>
    if 0 < t.1 then
      ((t.1 : ℚ) / ((t.1 : ℚ) + (t.2.2 : ℚ)) ::
         (prLoop rest ((t.1 : ℚ) / ((t.1 : ℚ) + (t.2.1 : ℚ)))).1,
       (t.1 : ℚ) / ((t.1 : ℚ) + (t.2.1 : ℚ)) ::
         (prLoop rest ((t.1 : ℚ) / ((t.1 : ℚ) + (t.2.1 : ℚ)))).2)
    else
      (0 :: (prLoop rest prev).1, prev :: (prLoop rest prev).2)

/-- `PrecisionRecall(perf, normalize)`: returns `(recall, precision)`; when
`normalize` is set, every precision entry is afterwards remapped by
`(p - c)/(1 - c)` with `c = P/(P+N)`. -/
def PrecisionRecall (perf : Performance) (normalize : Bool) : List ℚ × List ℚ :=
  let rp := prLoop (perf.Tp.zip (perf.Fp.zip perf.Fn)) 0
  if normalize then
    (rp.1, rp.2.map (fun p =>
      (p - (perf.P : ℚ) / ((perf.P : ℚ) + (perf.N : ℚ))) /
      (1 - (perf.P : ℚ) / ((perf.P : ℚ) + (perf.N : ℚ)))))
  else
    rp

/-- The trapezoid sum of `AUC`: sum over `i = 1..len-1` of
`|x[i] - x[i-1]| * (y[i] + y[i-1]) / 2` (all index accesses are in bounds when
the lengths agree). -/
def aucSum (x y : List ℚ) : ℚ :=
  ((List.range x.length).drop 1).foldl
    (fun acc i =>
      acc + |x.getD i 0 - x.getD (i - 1) 0| * ((y.getD i 0 + y.getD (i - 1) 0) / 2)) 0

/-- `AUC(x, y)`: `none` models the `panic("internal error")` that is taken
exactly when the two lengths differ; otherwise the trapezoid sum. -/
def AUC (x y : List ℚ) : Option ℚ :=
  if x.length = y.length then some (aucSum x y) else none

/-- The scan of `Optimum` over the first `n` indices: running best index `k`
(initially `0`) and best value `v` (initially `math.Inf(-1)`, modelled by `⊥`
in `WithBot ℚ`), updated whenever `x[i]*y[i] > v`. -/
def optAux (x y : List ℚ) : ℕ → ℕ × WithBot ℚ
  | 0 => (0, ⊥)
  | n + 1 =>
    let res := optAux x y n
    if res.2 < ((x.getD n 0 * y.getD n 0 : ℚ) : WithBot ℚ) then
      (n, ((x.getD n 0 * y.getD n 0 : ℚ) : WithBot ℚ))
    else
      res

/-- `Optimum(tr, x, y)`: linear scan over `i < len(tr)` returning the index of
the maximal product `x[i]*y[i]`, first occurrence retained because the update
test is a strict `>`. -/
def Optimum (tr x y : List ℚ) : ℕ :=
  (optAux x y tr.length).1

/-- Count of positive-labelled samples with score `≤ v`: the final value of
`n_pos_map[v]` after the sorted scan. -/
def posLE (pred : List (ℚ × ℤ)) (v : ℚ) : ℕ :=
  pred.countP (fun p => decide (p.1 ≤ v) && (p.2 == 1))

/-- Count of negative-labelled samples with score `≤ v`: the final value of
`n_neg_map[v]` after the sorted scan. -/
def negLE (pred : List (ℚ × ℤ)) (v : ℚ) : ℕ :=
  pred.countP (fun p => decide (p.1 ≤ v) && (p.2 == 0))

/-- Total number of positive labels: the final `n_pos`. -/
def nPos (pred : List (ℚ × ℤ)) : ℕ :=
  pred.countP (fun p => p.2 == 1)

/-- Total number of negative labels: the final `n_neg`. -/
def nNeg (pred : List (ℚ × ℤ)) : ℕ :=
  pred.countP (fun p => p.2 == 0)

theorem scanLoop_cons (s : ℚ) (lb : ℤ) (rest : List (ℚ × ℤ)) (st : ScanState) :
    scanLoop ((s, lb) :: rest) st =
      if lb = 1 then
        scanLoop rest ⟨st.np + 1, st.nn, upd st.mp s (st.np + 1), upd st.mn s st.nn⟩
      else if lb = 0 then
        scanLoop rest ⟨st.np, st.nn + 1, upd st.mp s st.np, upd st.mn s (st.nn + 1)⟩
      else
        .error "invalid label" := rfl

theorem scanLoop_cons_one (s : ℚ) (rest : List (ℚ × ℤ)) (st : ScanState) :
    scanLoop ((s, (1:ℤ)) :: rest) st =
      scanLoop rest ⟨st.np + 1, st.nn, upd st.mp s (st.np + 1), upd st.mn s st.nn⟩ := by
  rw [scanLoop_cons, if_pos rfl]

theorem scanLoop_cons_zero (s : ℚ) (rest : List (ℚ × ℤ)) (st : ScanState) :
    scanLoop ((s, (0:ℤ)) :: rest) st =
      scanLoop rest ⟨st.np, st.nn + 1, upd st.mp s st.np, upd st.mn s (st.nn + 1)⟩ := by
  rw [scanLoop_cons, if_neg (by decide : ¬ (0:ℤ) = 1), if_pos rfl]

theorem scanLoop_ok_iff (l : List (ℚ × ℤ)) (st : ScanState) :
    (∃ st2, scanLoop l st = .ok st2) ↔ ∀ p ∈ l, p.2 = 0 ∨ p.2 = 1 := by
  induction l generalizing st with
  | nil => simp [scanLoop]
  | cons q rest ih =>
    obtain ⟨s, lb⟩ := q
    by_cases h1 : lb = 1
    · subst h1
      rw [scanLoop_cons_one, ih]
      constructor
      · intro h p hp
        rcases List.mem_cons.mp hp with h' | h'
        · subst h'; right; rfl
        · exact h p h'
      · intro h p hp
        exact h p (List.mem_cons_of_mem _ hp)
    · by_cases h0 : lb = 0
      · subst h0
        rw [scanLoop_cons_zero, ih]
        constructor
        · intro h p hp
          rcases List.mem_cons.mp hp with h' | h'
          · subst h'; left; rfl
          · exact h p h'
        · intro h p hp
          exact h p (List.mem_cons_of_mem _ hp)
      · rw [scanLoop_cons, if_neg h1, if_neg h0]
        constructor
        · intro ⟨st2, hst2⟩
          exact absurd hst2 (by simp)
        · intro h
          exact absurd (h (s, lb) (List.mem_cons_self _ _)) (by simp [h0, h1])

theorem scanLoop_unchanged (l : List (ℚ × ℤ)) (st st2 : ScanState) (v : ℚ)
    (hok : scanLoop l st = .ok st2) (hv : v ∉ l.map Prod.fst) :
    st2.mp v = st.mp v ∧ st2.mn v = st.mn v := by
  induction l generalizing st with
  | nil =>
    simp only [scanLoop] at hok
    cases hok
    exact ⟨rfl, rfl⟩
  | cons q rest ih =>
    obtain ⟨s, lb⟩ := q
    have hvs : v ≠ s := by
      intro h; exact hv (by simp [h])
    have hvrest : v ∉ rest.map Prod.fst := by
      intro h; exact hv (by simp [h])
    by_cases h1 : lb = 1
    · subst h1
      rw [scanLoop_cons_one] at hok
      obtain ⟨hmp, hmn⟩ := ih _ hok hvrest
      rw [hmp, hmn]
      constructor
      · show upd st.mp s (st.np + 1) v = st.mp v
        rw [upd, if_neg hvs]
      · show upd st.mn s st.nn v = st.mn v
        rw [upd, if_neg hvs]
    · by_cases h0 : lb = 0
      · subst h0
        rw [scanLoop_cons_zero] at hok
        obtain ⟨hmp, hmn⟩ := ih _ hok hvrest
        rw [hmp, hmn]
        constructor
        · show upd st.mp s st.np v = st.mp v
          rw [upd, if_neg hvs]
        · show upd st.mn s (st.nn + 1) v = st.mn v
          rw [upd, if_neg hvs]
      · rw [scanLoop_cons, if_neg h1, if_neg h0] at hok
        exact absurd hok (by simp)

theorem scanLoop_spec (l : List (ℚ × ℤ)) (st : ScanState)
    (hval : ∀ p ∈ l, p.2 = 0 ∨ p.2 = 1)
    (hsort : l.Sorted (fun a b : ℚ × ℤ => a.1 ≤ b.1)) :
    ∃ st2, scanLoop l st = .ok st2 ∧
      st2.np = st.np + nPos l ∧
      st2.nn = st.nn + nNeg l ∧
      (∀ v ∈ l.map Prod.fst,
        st2.mp v = st.np + posLE l v ∧ st2.mn v = st.nn + negLE l v) := by
  induction l generalizing st with
  | nil =>
    exact ⟨st, rfl, by simp [nPos, List.countP_nil], by simp [nNeg, List.countP_nil], by simp⟩
  | cons q rest ih =>
    obtain ⟨s, lb⟩ := q
    have hvalr : ∀ p ∈ rest, p.2 = 0 ∨ p.2 = 1 := fun p hp => hval p (List.mem_cons_of_mem _ hp)
    have hsortr : rest.Sorted (fun a b : ℚ × ℤ => a.1 ≤ b.1) := hsort.of_cons
    have hrel : ∀ b ∈ rest, s ≤ b.1 := fun b hb => List.rel_of_sorted_cons hsort b hb
    rcases hval (s, lb) (List.mem_cons_self _ _) with h0 | h1
    · have h0' : lb = 0 := h0
      subst h0'
      obtain ⟨st2, hok, hnp, hnn, hmaps⟩ :=
        ih ⟨st.np, st.nn + 1, upd st.mp s st.np, upd st.mn s (st.nn + 1)⟩ hvalr hsortr
      dsimp only at hnp hnn hmaps
      refine ⟨st2, by rw [scanLoop_cons_zero]; exact hok, ?_, ?_, ?_⟩
      · rw [hnp]
        show st.np + nPos rest = st.np + nPos ((s, (0:ℤ)) :: rest)
        have : nPos ((s, (0:ℤ)) :: rest) = nPos rest := by
          rw [nPos, nPos, List.countP_cons]
          norm_num
        rw [this]
      · rw [hnn]
        show st.nn + 1 + nNeg rest = st.nn + nNeg ((s, (0:ℤ)) :: rest)
        have : nNeg ((s, (0:ℤ)) :: rest) = nNeg rest + 1 := by
          rw [nNeg, nNeg, List.countP_cons]
          norm_num
        rw [this]
        omega
      · intro v hv
        by_cases hvr : v ∈ rest.map Prod.fst
        · obtain ⟨hmp, hmn⟩ := hmaps v hvr
          have hsv : s ≤ v := by
            rcases List.mem_map.mp hvr with ⟨p, hp, hpv⟩
            rw [← hpv]
            exact hrel p hp
          constructor
          · rw [hmp]
            have : posLE ((s, (0:ℤ)) :: rest) v = posLE rest v := by
              rw [posLE, posLE, List.countP_cons]
              norm_num
            rw [this]
          · rw [hmn]
            have : negLE ((s, (0:ℤ)) :: rest) v = negLE rest v + 1 := by
              rw [negLE, negLE, List.countP_cons]
              simp [hsv]
            rw [this]
            omega
        · have hveq : v = s := by
            rcases List.mem_map.mp hv with ⟨p, hp, hpv⟩
            rcases List.mem_cons.mp hp with h' | h'
            · rw [← hpv, h']
            · exact absurd (List.mem_map.mpr ⟨p, h', hpv⟩) hvr
          subst hveq
          obtain ⟨hmp, hmn⟩ := scanLoop_unchanged rest _ st2 v hok hvr
          dsimp only at hmp hmn
          have hrest0p : posLE rest v = 0 := by
            rw [posLE, List.countP_eq_zero]
            intro p hp
            simp only [Bool.and_eq_true, decide_eq_true_eq, beq_iff_eq, not_and]
            intro hle _
            exact hvr (List.mem_map.mpr ⟨p, hp, le_antisymm hle (hrel p hp)⟩)
          have hrest0n : negLE rest v = 0 := by
            rw [negLE, List.countP_eq_zero]
            intro p hp
            simp only [Bool.and_eq_true, decide_eq_true_eq, beq_iff_eq, not_and]
            intro hle _
            exact hvr (List.mem_map.mpr ⟨p, hp, le_antisymm hle (hrel p hp)⟩)
          constructor
          · rw [hmp]
            show upd st.mp v st.np v = st.np + posLE ((v, (0:ℤ)) :: rest) v
            rw [upd, if_pos rfl]
            have : posLE ((v, (0:ℤ)) :: rest) v = posLE rest v := by
              rw [posLE, posLE, List.countP_cons]
              norm_num
            rw [this, hrest0p]
            omega
          · rw [hmn]
            show upd st.mn v (st.nn + 1) v = st.nn + negLE ((v, (0:ℤ)) :: rest) v
            rw [upd, if_pos rfl]
            have : negLE ((v, (0:ℤ)) :: rest) v = negLE rest v + 1 := by
              rw [negLE, negLE, List.countP_cons]
              simp
            rw [this, hrest0n]
    · have h1' : lb = 1 := h1
      subst h1'
      obtain ⟨st2, hok, hnp, hnn, hmaps⟩ :=
        ih ⟨st.np + 1, st.nn, upd st.mp s (st.np + 1), upd st.mn s st.nn⟩ hvalr hsortr
      dsimp only at hnp hnn hmaps
      refine ⟨st2, by rw [scanLoop_cons_one]; exact hok, ?_, ?_, ?_⟩
      · rw [hnp]
        show st.np + 1 + nPos rest = st.np + nPos ((s, (1:ℤ)) :: rest)
        have : nPos ((s, (1:ℤ)) :: rest) = nPos rest + 1 := by
          rw [nPos, nPos, List.countP_cons]
          norm_num
        rw [this]
        omega
      · rw [hnn]
        show st.nn + nNeg rest = st.nn + nNeg ((s, (1:ℤ)) :: rest)
        have : nNeg ((s, (1:ℤ)) :: rest) = nNeg rest := by
          rw [nNeg, nNeg, List.countP_cons]
          norm_num
        rw [this]
      · intro v hv
        by_cases hvr : v ∈ rest.map Prod.fst
        · obtain ⟨hmp, hmn⟩ := hmaps v hvr
          have hsv : s ≤ v := by
            rcases List.mem_map.mp hvr with ⟨p, hp, hpv⟩
            rw [← hpv]
            exact hrel p hp
          constructor
          · rw [hmp]
            have : posLE ((s, (1:ℤ)) :: rest) v = posLE rest v + 1 := by
              rw [posLE, posLE, List.countP_cons]
              simp [hsv]
            rw [this]
            omega
          · rw [hmn]
            have : negLE ((s, (1:ℤ)) :: rest) v = negLE rest v := by
              rw [negLE, negLE, List.countP_cons]
              norm_num
            rw [this]
        · have hveq : v = s := by
            rcases List.mem_map.mp hv with ⟨p, hp, hpv⟩
            rcases List.mem_cons.mp hp with h' | h'
            · rw [← hpv, h']
            · exact absurd (List.mem_map.mpr ⟨p, h', hpv⟩) hvr
          subst hveq
          obtain ⟨hmp, hmn⟩ := scanLoop_unchanged rest _ st2 v hok hvr
          dsimp only at hmp hmn
          have hrest0p : posLE rest v = 0 := by
            rw [posLE, List.countP_eq_zero]
            intro p hp
            simp only [Bool.and_eq_true, decide_eq_true_eq, beq_iff_eq, not_and]
            intro hle _
            exact hvr (List.mem_map.mpr ⟨p, hp, le_antisymm hle (hrel p hp)⟩)
          have hrest0n : negLE rest v = 0 := by
            rw [negLE, List.countP_eq_zero]
            intro p hp
            simp only [Bool.and_eq_true, decide_eq_true_eq, beq_iff_eq, not_and]
            intro hle _
            exact hvr (List.mem_map.mpr ⟨p, hp, le_antisymm hle (hrel p hp)⟩)
          constructor
          · rw [hmp]
            show upd st.mp v (st.np + 1) v = st.np + posLE ((v, (1:ℤ)) :: rest) v
            rw [upd, if_pos rfl]
            have : posLE ((v, (1:ℤ)) :: rest) v = posLE rest v + 1 := by
              rw [posLE, posLE, List.countP_cons]
              simp
            rw [this, hrest0p]
          · rw [hmn]
            show upd st.mn v st.nn v = st.nn + negLE ((v, (1:ℤ)) :: rest) v
            rw [upd, if_pos rfl]
            have : negLE ((v, (1:ℤ)) :: rest) v = negLE rest v := by
              rw [negLE, negLE, List.countP_cons]
              norm_num
            rw [this, hrest0n]
            omega

theorem sortPred_perm (pred : List (ℚ × ℤ)) : (sortPred pred).Perm pred :=
  List.perm_insertionSort _ _

theorem sortPred_sorted (pred : List (ℚ × ℤ)) :
    (sortPred pred).Sorted (fun a b => a.1 ≤ b.1) :=
  List.sorted_insertionSort _ _

theorem trOf_sorted (pred : List (ℚ × ℤ)) : (trOf pred).Sorted (· ≤ ·) :=
  List.sorted_insertionSort _ _

theorem trOf_nodup (pred : List (ℚ × ℤ)) : (trOf pred).Nodup :=
  ((List.perm_insertionSort _ _).nodup_iff).mpr (List.nodup_dedup _)

theorem trOf_mem (pred : List (ℚ × ℤ)) (v : ℚ) :
    v ∈ trOf pred ↔ v ∈ pred.map Prod.fst := by
  rw [trOf]
  rw [(List.perm_insertionSort _ _).mem_iff, List.mem_dedup]
  exact ((sortPred_perm pred).map Prod.fst).mem_iff

theorem trOf_sorted_mem (pred : List (ℚ × ℤ)) (v : ℚ) :
    v ∈ trOf pred ↔ v ∈ (sortPred pred).map Prod.fst := by
  rw [trOf]
  rw [(List.perm_insertionSort _ _).mem_iff, List.mem_dedup]

theorem evalPerformance_ok (pred : List (ℚ × ℤ))
    (hval : ∀ p ∈ pred, p.2 = 0 ∨ p.2 = 1) :
    evalPerformance pred = .ok ⟨trOf pred,
      (trOf pred).map (fun t => (nPos pred : ℤ) - (posLE pred t : ℤ)),
      (trOf pred).map (fun t => (nNeg pred : ℤ) - (negLE pred t : ℤ)),
      (trOf pred).map (fun t => (negLE pred t : ℤ)),
      (trOf pred).map (fun t => (posLE pred t : ℤ)),
      (nPos pred : ℤ), (nNeg pred : ℤ)⟩ := by
  have hperm := sortPred_perm pred
  have hval' : ∀ p ∈ sortPred pred, p.2 = 0 ∨ p.2 = 1 := fun p hp =>
    hval p (hperm.mem_iff.mp hp)
  obtain ⟨st2, hok, hnp, hnn, hmaps⟩ :=
    scanLoop_spec (sortPred pred) ⟨0, 0, fun _ => 0, fun _ => 0⟩ hval' (sortPred_sorted pred)
  dsimp only at hnp hnn hmaps
  have hnp2 : st2.np = nPos pred := by
    rw [hnp, Nat.zero_add, nPos, nPos]
    exact hperm.countP_eq _
  have hnn2 : st2.nn = nNeg pred := by
    rw [hnn, Nat.zero_add, nNeg, nNeg]
    exact hperm.countP_eq _
  have hmp2 : ∀ t ∈ trOf pred, st2.mp t = posLE pred t := by
    intro t ht
    obtain ⟨h, _⟩ := hmaps t ((trOf_sorted_mem pred t).mp ht)
    rw [h, Nat.zero_add, posLE, posLE]
    exact hperm.countP_eq _
  have hmn2 : ∀ t ∈ trOf pred, st2.mn t = negLE pred t := by
    intro t ht
    obtain ⟨_, h⟩ := hmaps t ((trOf_sorted_mem pred t).mp ht)
    rw [h, Nat.zero_add, negLE, negLE]
    exact hperm.countP_eq _
  show evalPerformance pred = _
  unfold evalPerformance
  rw [hok]
  show Except.ok (Performance.mk (trOf pred)
      ((trOf pred).map (fun t => (st2.np : ℤ) - (st2.mp t : ℤ)))
      ((trOf pred).map (fun t => (st2.nn : ℤ) - (st2.mn t : ℤ)))
      ((trOf pred).map (fun t => (st2.mn t : ℤ)))
      ((trOf pred).map (fun t => (st2.mp t : ℤ)))
      (st2.np : ℤ) (st2.nn : ℤ)) = Except.ok (Performance.mk (trOf pred)
      ((trOf pred).map (fun t => (nPos pred : ℤ) - (posLE pred t : ℤ)))
      ((trOf pred).map (fun t => (nNeg pred : ℤ) - (negLE pred t : ℤ)))
      ((trOf pred).map (fun t => (negLE pred t : ℤ)))
      ((trOf pred).map (fun t => (posLE pred t : ℤ)))
      (nPos pred : ℤ) (nNeg pred : ℤ))
  have e1 : (trOf pred).map (fun t => (st2.np : ℤ) - (st2.mp t : ℤ)) =
      (trOf pred).map (fun t => (nPos pred : ℤ) - (posLE pred t : ℤ)) :=
    List.map_congr_left (fun t ht => by rw [hnp2, hmp2 t ht])
  have e2 : (trOf pred).map (fun t => (st2.nn : ℤ) - (st2.mn t : ℤ)) =
      (trOf pred).map (fun t => (nNeg pred : ℤ) - (negLE pred t : ℤ)) :=
    List.map_congr_left (fun t ht => by rw [hnn2, hmn2 t ht])
  have e3 : (trOf pred).map (fun t => (st2.mn t : ℤ)) =
      (trOf pred).map (fun t => (negLE pred t : ℤ)) :=
    List.map_congr_left (fun t ht => by rw [hmn2 t ht])
  have e4 : (trOf pred).map (fun t => (st2.mp t : ℤ)) =
      (trOf pred).map (fun t => (posLE pred t : ℤ)) :=
    List.map_congr_left (fun t ht => by rw [hmp2 t ht])
  rw [e1, e2, e3, e4, hnp2, hnn2]

theorem posLE_mono (pred : List (ℚ × ℤ)) {v w : ℚ} (hvw : v ≤ w) :
    posLE pred v ≤ posLE pred w := by
  apply List.countP_mono_left
  intro p _ h
  simp only [Bool.and_eq_true, decide_eq_true_eq] at h ⊢
  exact ⟨le_trans h.1 hvw, h.2⟩

theorem negLE_mono (pred : List (ℚ × ℤ)) {v w : ℚ} (hvw : v ≤ w) :
    negLE pred v ≤ negLE pred w := by
  apply List.countP_mono_left
  intro p _ h
  simp only [Bool.and_eq_true, decide_eq_true_eq] at h ⊢
  exact ⟨le_trans h.1 hvw, h.2⟩

theorem getD_map_int (f : ℚ → ℤ) (l : List ℚ) (i : ℕ) (hi : i < l.length) :
    (l.map f).getD i 0 = f (l.getD i 0) := by
  rw [List.getD_eq_getElem _ _ (by simpa using hi), List.getElem_map,
      List.getD_eq_getElem _ _ hi]

theorem trOf_consecutive (pred : List (ℚ × ℤ)) (i : ℕ) (hi : i + 1 < (trOf pred).length) :
    (trOf pred).getD i 0 ≤ (trOf pred).getD (i + 1) 0 := by
  have hs := trOf_sorted pred
  rw [List.Sorted, List.pairwise_iff_getElem] at hs
  have h := hs i (i + 1) (by omega) hi (Nat.lt_succ_self i)
  rw [List.getD_eq_getElem _ _ (by omega), List.getD_eq_getElem _ _ hi]
  exact h

theorem prLoop_getD (l : List (ℤ × ℤ × ℤ)) (prev : ℚ) (i : ℕ) (hi : i < l.length) :
    (0 < (l.getD i (0, 0, 0)).1 →
      (prLoop l prev).1.getD i 0 =
        ((l.getD i (0, 0, 0)).1 : ℚ) /
          (((l.getD i (0, 0, 0)).1 : ℚ) + ((l.getD i (0, 0, 0)).2.2 : ℚ)) ∧
      (prLoop l prev).2.getD i 0 =
        ((l.getD i (0, 0, 0)).1 : ℚ) /
          (((l.getD i (0, 0, 0)).1 : ℚ) + ((l.getD i (0, 0, 0)).2.1 : ℚ))) ∧
    (¬ 0 < (l.getD i (0, 0, 0)).1 →
      (prLoop l prev).1.getD i 0 = 0 ∧
      (prLoop l prev).2.getD i 0 = if i = 0 then prev else (prLoop l prev).2.getD (i - 1) 0) := by
  induction l generalizing prev i with
  | nil => simp at hi
  | cons t rest ih =>
    by_cases ht : 0 < t.1
    · have hunf : prLoop (t :: rest) prev =
          ((t.1 : ℚ) / ((t.1 : ℚ) + (t.2.2 : ℚ)) ::
             (prLoop rest ((t.1 : ℚ) / ((t.1 : ℚ) + (t.2.1 : ℚ)))).1,
           (t.1 : ℚ) / ((t.1 : ℚ) + (t.2.1 : ℚ)) ::
             (prLoop rest ((t.1 : ℚ) / ((t.1 : ℚ) + (t.2.1 : ℚ)))).2) := by
        simp [prLoop, ht]
      cases i with
      | zero =>
        refine ⟨fun _ => ?_, fun hcon => absurd ht hcon⟩
        rw [hunf]
        simp [List.getD_cons_zero]
      | succ i =>
        have hi' : i < rest.length := by simpa using hi
        obtain ⟨hpos, hneg⟩ := ih ((t.1 : ℚ) / ((t.1 : ℚ) + (t.2.1 : ℚ))) i hi'
        rw [hunf]
        simp only [List.getD_cons_succ]
        refine ⟨hpos, fun hc => ?_⟩
        obtain ⟨h1, h2⟩ := hneg hc
        refine ⟨h1, ?_⟩
        rw [h2]
        cases i with
        | zero => simp [List.getD_cons_zero]
        | succ j =>
          simp only [Nat.succ_sub_one, List.getD_cons_succ]
          have : j + 1 ≠ 0 := Nat.succ_ne_zero j
          simp [this]
    · have hunf : prLoop (t :: rest) prev =
          (0 :: (prLoop rest prev).1, prev :: (prLoop rest prev).2) := by
        simp [prLoop, ht]
      cases i with
      | zero =>
        refine ⟨fun hcon => absurd hcon ht, fun _ => ?_⟩
        rw [hunf]
        simp [List.getD_cons_zero]
      | succ i =>
        have hi' : i < rest.length := by simpa using hi
        obtain ⟨hpos, hneg⟩ := ih prev i hi'
        rw [hunf]
        simp only [List.getD_cons_succ]
        refine ⟨hpos, fun hc => ?_⟩
        obtain ⟨h1, h2⟩ := hneg hc
        refine ⟨h1, ?_⟩
        rw [h2]
        cases i with
        | zero => simp [List.getD_cons_zero]
        | succ j =>
          simp only [Nat.succ_sub_one, List.getD_cons_succ]
          have : j + 1 ≠ 0 := Nat.succ_ne_zero j
          simp [this]

theorem zip3_getD (perf : Performance)
    (h1 : perf.Tp.length = perf.Tr.length) (h2 : perf.Fp.length = perf.Tr.length)
    (h3 : perf.Fn.length = perf.Tr.length) (i : ℕ) (hi : i < perf.Tr.length) :
    (perf.Tp.zip (perf.Fp.zip perf.Fn)).getD i (0, 0, 0) =
      (perf.Tp.getD i 0, perf.Fp.getD i 0, perf.Fn.getD i 0) := by
  have hz2 : (perf.Fp.zip perf.Fn).length = perf.Tr.length := by
    rw [List.length_zip, h2, h3]; exact min_self _
  have hz : (perf.Tp.zip (perf.Fp.zip perf.Fn)).length = perf.Tr.length := by
    rw [List.length_zip, h1, hz2]; exact min_self _
  rw [List.getD_eq_getElem _ _ (by omega : i < (perf.Tp.zip (perf.Fp.zip perf.Fn)).length)]
  rw [List.getElem_zip, List.getElem_zip]
  rw [List.getD_eq_getElem _ _ (by omega : i < perf.Tp.length),
      List.getD_eq_getElem _ _ (by omega : i < perf.Fp.length),
      List.getD_eq_getElem _ _ (by omega : i < perf.Fn.length)]

theorem optAux_spec (x y : List ℚ) :
    ∀ n : ℕ, 0 < n →
      (optAux x y n).1 < n ∧
      (optAux x y n).2 =
        ((x.getD (optAux x y n).1 0 * y.getD (optAux x y n).1 0 : ℚ) : WithBot ℚ) ∧
      (∀ j, j < n →
        x.getD j 0 * y.getD j 0 ≤ x.getD (optAux x y n).1 0 * y.getD (optAux x y n).1 0) ∧
      (∀ j, j < (optAux x y n).1 →
        x.getD j 0 * y.getD j 0 < x.getD (optAux x y n).1 0 * y.getD (optAux x y n).1 0) := by
  intro n
  induction n with
  | zero => intro h; exact absurd h (lt_irrefl 0)
  | succ n ih =>
    intro _
    have hunf : optAux x y (n + 1) =
        if (optAux x y n).2 < ((x.getD n 0 * y.getD n 0 : ℚ) : WithBot ℚ) then
          (n, ((x.getD n 0 * y.getD n 0 : ℚ) : WithBot ℚ))
        else optAux x y n := rfl
    by_cases hn : 0 < n
    · obtain ⟨h1, h2, h3, h4⟩ := ih hn
      by_cases hlt : (optAux x y n).2 < ((x.getD n 0 * y.getD n 0 : ℚ) : WithBot ℚ)
      · rw [hunf, if_pos hlt]
        have hklt : x.getD (optAux x y n).1 0 * y.getD (optAux x y n).1 0 <
            x.getD n 0 * y.getD n 0 := by
          rw [h2] at hlt
          exact_mod_cast hlt
        refine ⟨Nat.lt_succ_self n, rfl, ?_, ?_⟩
        · intro j hj
          rcases Nat.lt_succ_iff_lt_or_eq.mp hj with hj' | hj'
          · exact le_of_lt (lt_of_le_of_lt (h3 j hj') hklt)
          · subst hj'; exact le_refl _
        · intro j hj
          have hj' : j < n := hj
          exact lt_of_le_of_lt (h3 j hj') hklt
      · rw [hunf, if_neg hlt]
        have hge : x.getD n 0 * y.getD n 0 ≤
            x.getD (optAux x y n).1 0 * y.getD (optAux x y n).1 0 := by
          have h := le_of_not_lt hlt
          rw [h2] at h
          exact_mod_cast h
        refine ⟨lt_trans h1 (Nat.lt_succ_self n), h2, ?_, h4⟩
        intro j hj
        rcases Nat.lt_succ_iff_lt_or_eq.mp hj with hj' | hj'
        · exact h3 j hj'
        · subst hj'; exact hge
    · have hn0 : n = 0 := by omega
      subst hn0
      have hbot : (optAux x y 0).2 = (⊥ : WithBot ℚ) := rfl
      rw [hunf, hbot, if_pos (WithBot.bot_lt_coe _)]
      refine ⟨Nat.lt_succ_self 0, rfl, ?_, ?_⟩
      · intro j hj
        have hj0 : j = 0 := by omega
        subst hj0; exact le_refl _
      · intro j hj
        exact absurd hj (Nat.not_lt_zero j)

theorem scanLoop_eq_computeScan (l : List (ℚ × ℤ)) (st : ScanState)
    (hval : ∀ p ∈ l, p.2 = 0 ∨ p.2 = 1) :
    scanLoop l st = .ok (computeScan l st) := by
  induction l generalizing st with
  | nil => rfl
  | cons q rest ih =>
    obtain ⟨s, lb⟩ := q
    have hvalr : ∀ p ∈ rest, p.2 = 0 ∨ p.2 = 1 := fun p hp => hval p (List.mem_cons_of_mem _ hp)
    rcases hval (s, lb) (List.mem_cons_self _ _) with h0 | h1
    · have h0' : lb = 0 := h0
      subst h0'
      rw [scanLoop_cons_zero]
      have hc : computeScan ((s, (0:ℤ)) :: rest) st =
          computeScan rest ⟨st.np, st.nn + 1, upd st.mp s st.np, upd st.mn s (st.nn + 1)⟩ := by
        show computeScan rest _ = _
        norm_num
      rw [hc]
      exact ih _ hvalr
    · have h1' : lb = 1 := h1
      subst h1'
      rw [scanLoop_cons_one]
      have hc : computeScan ((s, (1:ℤ)) :: rest) st =
          computeScan rest ⟨st.np + 1, st.nn, upd st.mp s (st.np + 1), upd st.mn s st.nn⟩ := by
        show computeScan rest _ = _
        norm_num
      rw [hc]
      exact ih _ hvalr

/-- C1: for every valid dataset (all labels in 01, at least one sample),
`EvalPerformance` succeeds and the returned `Performance` satisfies, at every
index, `Tp[i] + Fn[i] = P` and `Fp[i] + Tn[i] = N`, and along ascending
thresholds `Tp`, `Fp` are non-increasing while `Tn`, `Fn` are
non-decreasing. -/
theorem evalPerformance_invariants (pred : List (ℚ × ℤ))
    (hval : ∀ p ∈ pred, p.2 = 0 ∨ p.2 = 1) (hne : pred ≠ []) :
    ∃ perf : Performance, evalPerformance pred = .ok perf ∧
      (∀ i, i < perf.Tr.length →
        perf.Tp.getD i 0 + perf.Fn.getD i 0 = perf.P ∧
        perf.Fp.getD i 0 + perf.Tn.getD i 0 = perf.N) ∧
      (∀ i, i + 1 < perf.Tr.length →
        perf.Tp.getD (i + 1) 0 ≤ perf.Tp.getD i 0 ∧
        perf.Fp.getD (i + 1) 0 ≤ perf.Fp.getD i 0 ∧
        perf.Tn.getD i 0 ≤ perf.Tn.getD (i + 1) 0 ∧
        perf.Fn.getD i 0 ≤ perf.Fn.getD (i + 1) 0) := by
  refine ⟨_, evalPerformance_ok pred hval, ?_, ?_⟩
  · intro i hi
    dsimp only at hi ⊢
    have hi' : i < (trOf pred).length := hi
    rw [getD_map_int _ _ _ hi', getD_map_int _ _ _ hi', getD_map_int _ _ _ hi',
        getD_map_int _ _ _ hi']
    constructor <;> omega
  · intro i hi
    dsimp only at hi ⊢
    have hi1 : i + 1 < (trOf pred).length := hi
    have hi0 : i < (trOf pred).length := by omega
    rw [getD_map_int _ _ _ hi1, getD_map_int _ _ _ hi0, getD_map_int _ _ _ hi1,
        getD_map_int _ _ _ hi0, getD_map_int _ _ _ hi0, getD_map_int _ _ _ hi1,
        getD_map_int _ _ _ hi0, getD_map_int _ _ _ hi1]
    have hc := trOf_consecutive pred i hi1
    have h1 := posLE_mono pred hc
    have h2 := negLE_mono pred hc
    refine ⟨by omega, by omega, by omega, by omega⟩

/-- C1 witness: the invariants at the concrete dataset
`[(1, label 1), (2, label 0)]`. -/
theorem evalPerformance_invariants_witness :
    ∃ perf : Performance,
      evalPerformance [((1:ℚ), (1:ℤ)), ((2:ℚ), (0:ℤ))] = .ok perf ∧
      (∀ i, i < perf.Tr.length →
        perf.Tp.getD i 0 + perf.Fn.getD i 0 = perf.P ∧
        perf.Fp.getD i 0 + perf.Tn.getD i 0 = perf.N) ∧
      (∀ i, i + 1 < perf.Tr.length →
        perf.Tp.getD (i + 1) 0 ≤ perf.Tp.getD i 0 ∧
        perf.Fp.getD (i + 1) 0 ≤ perf.Fp.getD i 0 ∧
        perf.Tn.getD i 0 ≤ perf.Tn.getD (i + 1) 0 ∧
        perf.Fn.getD i 0 ≤ perf.Fn.getD (i + 1) 0) :=
  evalPerformance_invariants [((1:ℚ), (1:ℤ)), ((2:ℚ), (0:ℤ))] (by decide) (by decide)

/-- C2: for every well-formed `Performance`, `PrecisionRecall` returns
`recall[i] = Tp[i]/(Tp[i]+Fn[i])` and `precision[i] = Tp[i]/(Tp[i]+Fp[i])`
whenever `Tp[i] > 0`; when `Tp[i] = 0`, `precision[0]` stays `0` and
`precision[i]` copies `precision[i-1]` for `i > 0`; and with the normalize
flag, the precision sequence is the unnormalized one remapped entrywise by
`(p - c)/(1 - c)` with `c = P/(P+N)` while recall is unchanged. -/
theorem PrecisionRecall_spec (perf : Performance)
    (h1 : perf.Tp.length = perf.Tr.length) (h2 : perf.Fp.length = perf.Tr.length)
    (h3 : perf.Fn.length = perf.Tr.length) (i : ℕ) (hi : i < perf.Tr.length) :
    (0 < perf.Tp.getD i 0 →
      (PrecisionRecall perf false).1.getD i 0 =
        (perf.Tp.getD i 0 : ℚ) / ((perf.Tp.getD i 0 : ℚ) + (perf.Fn.getD i 0 : ℚ)) ∧
      (PrecisionRecall perf false).2.getD i 0 =
        (perf.Tp.getD i 0 : ℚ) / ((perf.Tp.getD i 0 : ℚ) + (perf.Fp.getD i 0 : ℚ))) ∧
    (perf.Tp.getD i 0 = 0 →
      (i = 0 → (PrecisionRecall perf false).2.getD 0 0 = 0) ∧
      (0 < i → (PrecisionRecall perf false).2.getD i 0 =
        (PrecisionRecall perf false).2.getD (i - 1) 0)) ∧
    ((PrecisionRecall perf true).1 = (PrecisionRecall perf false).1 ∧
     (PrecisionRecall perf true).2 = (PrecisionRecall perf false).2.map (fun p =>
       (p - (perf.P : ℚ) / ((perf.P : ℚ) + (perf.N : ℚ))) /
       (1 - (perf.P : ℚ) / ((perf.P : ℚ) + (perf.N : ℚ))))) := by
  have hz : (perf.Tp.zip (perf.Fp.zip perf.Fn)).length = perf.Tr.length := by
    rw [List.length_zip, List.length_zip, h1, h2, h3, min_self, min_self]
  have hfalse : PrecisionRecall perf false = prLoop (perf.Tp.zip (perf.Fp.zip perf.Fn)) 0 := rfl
  obtain ⟨hpos, hneg⟩ := prLoop_getD (perf.Tp.zip (perf.Fp.zip perf.Fn)) 0 i (by omega)
  rw [zip3_getD perf h1 h2 h3 i hi] at hpos hneg
  refine ⟨?_, ?_, rfl, rfl⟩
  · intro htp
    have := hpos htp
    rw [hfalse]
    exact this
  · intro htp
    have hc : ¬ 0 < (perf.Tp.getD i 0, perf.Fp.getD i 0, perf.Fn.getD i 0).1 := by
      show ¬ 0 < perf.Tp.getD i 0
      rw [htp]
      exact lt_irrefl 0
    obtain ⟨hrec, hprec⟩ := hneg hc
    rw [hfalse]
    constructor
    · intro hi0
      subst hi0
      rw [hprec]
      simp
    · intro hi0
      rw [hprec]
      have : i ≠ 0 := by omega
      simp [this]

/-- C2 witness: the specification at a concrete sweep of length 2 with
`Tp = [1, 0]` (exercising both the ratio branch and the carry branch at
index 1). -/
theorem PrecisionRecall_spec_witness :
    (0 < (Performance.mk [(5:ℚ), 6] [1, 0] [1, 0] [0, 1] [0, 1] 1 1).Tp.getD 1 0 →
      (PrecisionRecall (Performance.mk [(5:ℚ), 6] [1, 0] [1, 0] [0, 1] [0, 1] 1 1) false).1.getD 1 0 =
        ((Performance.mk [(5:ℚ), 6] [1, 0] [1, 0] [0, 1] [0, 1] 1 1).Tp.getD 1 0 : ℚ) /
          (((Performance.mk [(5:ℚ), 6] [1, 0] [1, 0] [0, 1] [0, 1] 1 1).Tp.getD 1 0 : ℚ) +
            ((Performance.mk [(5:ℚ), 6] [1, 0] [1, 0] [0, 1] [0, 1] 1 1).Fn.getD 1 0 : ℚ)) ∧
      (PrecisionRecall (Performance.mk [(5:ℚ), 6] [1, 0] [1, 0] [0, 1] [0, 1] 1 1) false).2.getD 1 0 =
        ((Performance.mk [(5:ℚ), 6] [1, 0] [1, 0] [0, 1] [0, 1] 1 1).Tp.getD 1 0 : ℚ) /
          (((Performance.mk [(5:ℚ), 6] [1, 0] [1, 0] [0, 1] [0, 1] 1 1).Tp.getD 1 0 : ℚ) +
            ((Performance.mk [(5:ℚ), 6] [1, 0] [1, 0] [0, 1] [0, 1] 1 1).Fp.getD 1 0 : ℚ))) ∧
    ((Performance.mk [(5:ℚ), 6] [1, 0] [1, 0] [0, 1] [0, 1] 1 1).Tp.getD 1 0 = 0 →
      (1 = 0 →
        (PrecisionRecall (Performance.mk [(5:ℚ), 6] [1, 0] [1, 0] [0, 1] [0, 1] 1 1) false).2.getD 0 0 = 0) ∧
      (0 < 1 →
        (PrecisionRecall (Performance.mk [(5:ℚ), 6] [1, 0] [1, 0] [0, 1] [0, 1] 1 1) false).2.getD 1 0 =
        (PrecisionRecall (Performance.mk [(5:ℚ), 6] [1, 0] [1, 0] [0, 1] [0, 1] 1 1) false).2.getD (1 - 1) 0)) ∧
    ((PrecisionRecall (Performance.mk [(5:ℚ), 6] [1, 0] [1, 0] [0, 1] [0, 1] 1 1) true).1 =
      (PrecisionRecall (Performance.mk [(5:ℚ), 6] [1, 0] [1, 0] [0, 1] [0, 1] 1 1) false).1 ∧
     (PrecisionRecall (Performance.mk [(5:ℚ), 6] [1, 0] [1, 0] [0, 1] [0, 1] 1 1) true).2 =
      (PrecisionRecall (Performance.mk [(5:ℚ), 6] [1, 0] [1, 0] [0, 1] [0, 1] 1 1) false).2.map (fun p =>
       (p - ((Performance.mk [(5:ℚ), 6] [1, 0] [1, 0] [0, 1] [0, 1] 1 1).P : ℚ) /
          (((Performance.mk [(5:ℚ), 6] [1, 0] [1, 0] [0, 1] [0, 1] 1 1).P : ℚ) +
            ((Performance.mk [(5:ℚ), 6] [1, 0] [1, 0] [0, 1] [0, 1] 1 1).N : ℚ))) /
       (1 - ((Performance.mk [(5:ℚ), 6] [1, 0] [1, 0] [0, 1] [0, 1] 1 1).P : ℚ) /
          (((Performance.mk [(5:ℚ), 6] [1, 0] [1, 0] [0, 1] [0, 1] 1 1).P : ℚ) +
            ((Performance.mk [(5:ℚ), 6] [1, 0] [1, 0] [0, 1] [0, 1] 1 1).N : ℚ))))) :=
  PrecisionRecall_spec (Performance.mk [(5:ℚ), 6] [1, 0] [1, 0] [0, 1] [0, 1] 1 1)
    rfl rfl rfl 1 (by decide)

/-- C3 counterexample: on the empty input, `EvalPerformance` does not fail; it
returns an empty sweep with no error (the empty-table rejection lives in the
CLI caller `classifier_performance`, before `EvalPerformance` is invoked). -/
theorem evalPerformance_empty_ok :
    evalPerformance ([] : List (ℚ × ℤ)) = .ok ⟨[], [], [], [], [], 0, 0⟩ := rfl

/-- C3 amended: `EvalPerformance` succeeds exactly when every label is 0 or 1;
the empty input is accepted (with an empty sweep), and only an invalid label
produces the validation error. -/
theorem evalPerformance_ok_iff (pred : List (ℚ × ℤ)) :
    (∃ perf, evalPerformance pred = .ok perf) ↔ ∀ p ∈ pred, p.2 = 0 ∨ p.2 = 1 := by
  have hmem : (∀ p ∈ sortPred pred, p.2 = 0 ∨ p.2 = 1) ↔ ∀ p ∈ pred, p.2 = 0 ∨ p.2 = 1 := by
    constructor
    · exact fun h p hp => h p ((sortPred_perm pred).mem_iff.mpr hp)
    · exact fun h p hp => h p ((sortPred_perm pred).mem_iff.mp hp)
  rw [← hmem, ← scanLoop_ok_iff (sortPred pred) ⟨0, 0, fun _ => 0, fun _ => 0⟩]
  unfold evalPerformance
  cases h : scanLoop (sortPred pred) ⟨0, 0, fun _ => 0, fun _ => 0⟩ with
  | error e =>
    simp only [h]
    constructor
    · intro ⟨perf, hperf⟩
      exact absurd hperf (by simp)
    · intro ⟨st2, hst2⟩
      exact absurd hst2 (by simp)
  | ok st =>
    simp only [h]
    constructor
    · intro _
      exact ⟨st, rfl⟩
    · intro _
      exact ⟨_, rfl⟩

/-- C4: for every valid dataset, the thresholds sequence is strictly
increasing, contains exactly one entry per distinct score value present in the
input, and its length equals the number of distinct scores, which is at most
the number of samples. -/
theorem evalPerformance_thresholds (pred : List (ℚ × ℤ))
    (hval : ∀ p ∈ pred, p.2 = 0 ∨ p.2 = 1) (hne : pred ≠ []) :
    ∃ perf : Performance, evalPerformance pred = .ok perf ∧
      perf.Tr.Sorted (· < ·) ∧
      (∀ v, v ∈ perf.Tr ↔ v ∈ pred.map Prod.fst) ∧
      perf.Tr.Nodup ∧
      perf.Tr.length = (pred.map Prod.fst).dedup.length ∧
      perf.Tr.length ≤ pred.length := by
  refine ⟨_, evalPerformance_ok pred hval, ?_, ?_, ?_, ?_, ?_⟩
  · exact (trOf_sorted pred).lt_of_le (trOf_nodup pred)
  · exact fun v => trOf_mem pred v
  · exact trOf_nodup pred
  · show (trOf pred).length = (pred.map Prod.fst).dedup.length
    have h1 : (trOf pred).length = ((sortPred pred).map Prod.fst).dedup.length :=
      (List.perm_insertionSort _ _).length_eq
    have h2 : (((sortPred pred).map Prod.fst).dedup).Perm ((pred.map Prod.fst).dedup) :=
      ((sortPred_perm pred).map Prod.fst).dedup
    rw [h1, h2.length_eq]
  · show (trOf pred).length ≤ pred.length
    have h1 : (trOf pred).length = ((sortPred pred).map Prod.fst).dedup.length :=
      (List.perm_insertionSort _ _).length_eq
    have h2 : ((sortPred pred).map Prod.fst).dedup.length ≤
        ((sortPred pred).map Prod.fst).length :=
      (List.dedup_sublist _).length_le
    have h3 : ((sortPred pred).map Prod.fst).length = pred.length := by
      rw [List.length_map]
      exact (sortPred_perm pred).length_eq
    omega

/-- C4 witness: the thresholds properties at the concrete dataset
`[(1, 1), (1, 0), (2, 1)]`, whose duplicate score 1 collapses. -/
theorem evalPerformance_thresholds_witness :
    ∃ perf : Performance,
      evalPerformance [((1:ℚ), (1:ℤ)), ((1:ℚ), (0:ℤ)), ((2:ℚ), (1:ℤ))] = .ok perf ∧
      perf.Tr.Sorted (· < ·) ∧
      (∀ v, v ∈ perf.Tr ↔ v ∈ [((1:ℚ), (1:ℤ)), ((1:ℚ), (0:ℤ)), ((2:ℚ), (1:ℤ))].map Prod.fst) ∧
      perf.Tr.Nodup ∧
      perf.Tr.length = ([((1:ℚ), (1:ℤ)), ((1:ℚ), (0:ℤ)), ((2:ℚ), (1:ℤ))].map Prod.fst).dedup.length ∧
      perf.Tr.length ≤ [((1:ℚ), (1:ℤ)), ((1:ℚ), (0:ℤ)), ((2:ℚ), (1:ℤ))].length :=
  evalPerformance_thresholds [((1:ℚ), (1:ℤ)), ((1:ℚ), (0:ℤ)), ((2:ℚ), (1:ℤ))]
    (by decide) (by decide)

/-- C5 counterexample: `AUC([0, 0.5, 1], [0, 0, 1])` is not `0.5`. -/
theorem AUC_example_false : ¬ (AUC [0, (1:ℚ)/2, 1] [0, 0, 1] = some ((1:ℚ)/2)) := by
  intro h
  rw [show AUC [0, (1:ℚ)/2, 1] [0, 0, 1] = some (aucSum [0, (1:ℚ)/2, 1] [0, 0, 1]) from rfl] at h
  norm_num [aucSum, List.range_succ, abs] at h

/-- C5 amended: the trapezoid sum gives `AUC([0,1],[1,1]) = 1.0` exactly, and
`AUC([0, 0.5, 1], [0, 0, 1]) = 0.25` exactly (not the 0.5 the spec states:
the two trapezoids have areas `0.5 * 0 = 0` and `0.5 * 0.5 = 0.25`). -/
theorem AUC_examples :
    AUC [0, 1] [1, 1] = some 1 ∧ AUC [0, (1:ℚ)/2, 1] [0, 0, 1] = some ((1:ℚ)/4) := by
  constructor
  · show some (aucSum [0, 1] [1, 1]) = some 1
    norm_num [aucSum, List.range_succ, abs]
  · show some (aucSum [0, (1:ℚ)/2, 1] [0, 0, 1]) = some ((1:ℚ)/4)
    norm_num [aucSum, List.range_succ, abs]

/-- C6 counterexample: on the valid, ascending dataset `[(1, 1), (1, 0)]` with
a duplicate score, `EvalPerformance` (thresholds `[1]`) and
`ComputePerformance` (thresholds `[1, 1]`: it collects *all* values, not the
map keys) disagree. -/
theorem evalPerformance_ne_computePerformance :
    evalPerformance [((1:ℚ), (1:ℤ)), ((1:ℚ), (0:ℤ))] ≠
      .ok (computePerformance [((1:ℚ), (1:ℤ)), ((1:ℚ), (0:ℤ))]) := by
  intro h
  have h1 : evalPerformance [((1:ℚ), (1:ℤ)), ((1:ℚ), (0:ℤ))] =
      .ok ⟨[1], [0], [0], [1], [1], 1, 1⟩ := by
    rw [evalPerformance_ok _ (by decide)]
    rfl
  rw [h1] at h
  have h2 : (computePerformance [((1:ℚ), (1:ℤ)), ((1:ℚ), (0:ℤ))]).Tr.length = 2 := rfl
  have h3 : (Performance.mk [1] [0] [0] [1] [1] 1 1 : Performance) =
      computePerformance [((1:ℚ), (1:ℤ)), ((1:ℚ), (0:ℤ))] :=
    Except.ok.inj h
  rw [← h3] at h2
  simp at h2

/-- C6 amended: for every valid dataset given in ascending score order whose
scores are pairwise distinct, `EvalPerformance` and the duplicated
`ComputePerformance` variant return identical thresholds, `tp`, `fp`, `tn`,
`fn` sequences and identical totals; with duplicate scores the two differ
(`ComputePerformance` keeps one threshold entry per sample). -/
theorem evalPerformance_eq_computePerformance (pred : List (ℚ × ℤ))
    (hval : ∀ p ∈ pred, p.2 = 0 ∨ p.2 = 1)
    (hsort : pred.Sorted (fun a b : ℚ × ℤ => a.1 ≤ b.1))
    (hnodup : (pred.map Prod.fst).Nodup) (hne : pred ≠ []) :
    evalPerformance pred = .ok (computePerformance pred) := by
  have hid : sortPred pred = pred := List.Sorted.insertionSort_eq hsort
  have htr : trOf pred = List.insertionSort (fun a b => a ≤ b) (pred.map Prod.fst) := by
    rw [trOf, hid, List.dedup_eq_self.mpr hnodup]
  unfold evalPerformance
  rw [hid, scanLoop_eq_computeScan pred _ hval]
  show Except.ok _ = _
  unfold computePerformance
  rw [htr]

/-- C6 witness: the agreement at the concrete ascending, duplicate-free
dataset `[(1, 0), (2, 1)]`. -/
theorem evalPerformance_eq_computePerformance_witness :
    evalPerformance [((1:ℚ), (0:ℤ)), ((2:ℚ), (1:ℤ))] =
      .ok (computePerformance [((1:ℚ), (0:ℤ)), ((2:ℚ), (1:ℤ))]) :=
  evalPerformance_eq_computePerformance [((1:ℚ), (0:ℤ)), ((2:ℚ), (1:ℤ))]
    (by decide) (by decide) (by decide) (by decide)

/-- C7: for equal-length, non-empty inputs, `Optimum` returns an in-range
index whose product `x[i]*y[i]` is maximal, and every earlier index has a
strictly smaller product (ties are broken by first occurrence, since the
update test is strict). -/
theorem Optimum_spec (tr x y : List ℚ)
    (h1 : x.length = tr.length) (h2 : y.length = tr.length) (hne : tr ≠ []) :
    Optimum tr x y < tr.length ∧
    (∀ j, j < tr.length →
      x.getD j 0 * y.getD j 0 ≤ x.getD (Optimum tr x y) 0 * y.getD (Optimum tr x y) 0) ∧
    (∀ j, j < Optimum tr x y →
      x.getD j 0 * y.getD j 0 < x.getD (Optimum tr x y) 0 * y.getD (Optimum tr x y) 0) := by
  have hlen : 0 < tr.length := List.length_pos.mpr hne
  obtain ⟨a, b, c, d⟩ := optAux_spec x y tr.length hlen
  exact ⟨a, c, d⟩

/-- C7 witness: on `x = [0.1, 0.9, 0.5]`, `y = [0.2, 0.8, 0.9]` the returned
index is 1 (product 0.72), and the optimality properties hold there. -/
theorem Optimum_spec_witness :
    Optimum [1, 2, 3] [(1:ℚ)/10, 9/10, 1/2] [(1:ℚ)/5, 4/5, 9/10] = 1 ∧
    (Optimum [1, 2, 3] [(1:ℚ)/10, 9/10, 1/2] [(1:ℚ)/5, 4/5, 9/10] <
        ([1, 2, 3] : List ℚ).length ∧
      (∀ j, j < ([1, 2, 3] : List ℚ).length →
        ([(1:ℚ)/10, 9/10, 1/2] : List ℚ).getD j 0 * ([(1:ℚ)/5, 4/5, 9/10] : List ℚ).getD j 0 ≤
          ([(1:ℚ)/10, 9/10, 1/2] : List ℚ).getD
              (Optimum [1, 2, 3] [(1:ℚ)/10, 9/10, 1/2] [(1:ℚ)/5, 4/5, 9/10]) 0 *
            ([(1:ℚ)/5, 4/5, 9/10] : List ℚ).getD
              (Optimum [1, 2, 3] [(1:ℚ)/10, 9/10, 1/2] [(1:ℚ)/5, 4/5, 9/10]) 0) ∧
      (∀ j, j < Optimum [1, 2, 3] [(1:ℚ)/10, 9/10, 1/2] [(1:ℚ)/5, 4/5, 9/10] →
        ([(1:ℚ)/10, 9/10, 1/2] : List ℚ).getD j 0 * ([(1:ℚ)/5, 4/5, 9/10] : List ℚ).getD j 0 <
          ([(1:ℚ)/10, 9/10, 1/2] : List ℚ).getD
              (Optimum [1, 2, 3] [(1:ℚ)/10, 9/10, 1/2] [(1:ℚ)/5, 4/5, 9/10]) 0 *
            ([(1:ℚ)/5, 4/5, 9/10] : List ℚ).getD
              (Optimum [1, 2, 3] [(1:ℚ)/10, 9/10, 1/2] [(1:ℚ)/5, 4/5, 9/10]) 0)) :=
  ⟨by norm_num [Optimum, optAux],
   Optimum_spec [1, 2, 3] [(1:ℚ)/10, 9/10, 1/2] [(1:ℚ)/5, 4/5, 9/10]
     (by decide) (by decide) (by decide)⟩

/-- C8 counterexample: the caller's sequences are not unchanged; the in-place
sort reorders `[(2, 1), (1, 0)]` into `[(1, 0), (2, 1)]`. -/
theorem sortPred_changes_input :
    sortPred [((2:ℚ), (1:ℤ)), ((1:ℚ), (0:ℤ))] ≠ [((2:ℚ), (1:ℤ)), ((1:ℚ), (0:ℤ))] := by
  decide

/-- C8 amended: `EvalPerformance` does mutate the caller's sequences: its
`sort.Sort` permutes them in place into ascending score order.  After the call
the caller's arrays hold exactly a permutation of the original `(score,
label)` pairs, sorted by score; no pair is added, removed or altered. -/
theorem sortPred_perm_and_sorted (pred : List (ℚ × ℤ)) :
    (sortPred pred).Perm pred ∧ (sortPred pred).Sorted (fun a b => a.1 ≤ b.1) :=
  ⟨sortPred_perm pred, sortPred_sorted pred⟩

/-- C9: `AUC` panics (modelled by `none`) exactly when the two input lengths
differ, and never panics when they agree. -/
theorem AUC_none_iff (x y : List ℚ) : AUC x y = none ↔ x.length ≠ y.length := by
  unfold AUC
  split_ifs with h <;> simp [h]

/-- C10: whenever `Tp[i] = 0`, the recall entry keeps its zero value exactly
(recall is only assigned in the `Tp[i] > 0` branch), so no 0/0 division is
ever evaluated for recall, even when `P = 0`. -/
theorem PrecisionRecall_recall_zero (perf : Performance)
    (h1 : perf.Tp.length = perf.Tr.length) (h2 : perf.Fp.length = perf.Tr.length)
    (h3 : perf.Fn.length = perf.Tr.length) (i : ℕ) (hi : i < perf.Tr.length)
    (hz : perf.Tp.getD i 0 = 0) :
    (PrecisionRecall perf false).1.getD i 0 = 0 := by
  obtain ⟨hpos, hneg⟩ := prLoop_getD (perf.Tp.zip (perf.Fp.zip perf.Fn)) 0 i
    (by rw [List.length_zip, List.length_zip, h1, h2, h3, min_self, min_self]; omega)
  rw [zip3_getD perf h1 h2 h3 i hi] at hneg
  have hc : ¬ 0 < (perf.Tp.getD i 0, perf.Fp.getD i 0, perf.Fn.getD i 0).1 := by
    show ¬ 0 < perf.Tp.getD i 0
    rw [hz]
    exact lt_irrefl 0
  exact (hneg hc).1

/-- C10 witness: the all-negative sweep (`P = 0`, `Tp = [0]`) has recall
exactly 0 at index 0. -/
theorem PrecisionRecall_recall_zero_witness :
    (PrecisionRecall (Performance.mk [(1:ℚ)] [0] [0] [1] [0] 0 1) false).1.getD 0 0 = 0 :=
  PrecisionRecall_recall_zero (Performance.mk [(1:ℚ)] [0] [0] [1] [0] 0 1)
    rfl rfl rfl 0 (by decide) (by decide)
